import Mathlib

/-!
Verification development for the two lock-free bounded queues of the
repository (`mpmc_queue.h` and `ring_buffer.h`), under their sequential
(single-threaded) semantics: one operation runs to completion at a time, so
every atomic load observes the current field value and every
compare-exchange whose expected value matches succeeds.

Modelling conventions:
  * `size_t` counters are modelled as `Nat`.  The counters are monotone and
    start at 0, so for any run of fewer than `2^64` operations the `Nat`
    value coincides with the machine value; `size_t` subtractions that the
    source only performs when the minuend is the larger operand are `Nat`
    subtraction.  The one place where 64-bit wraparound is essential to the
    source's behaviour (the ring-buffer destructor loop, whose termination
    depends on `head` wrapping) models the increment modulo `2^64`
    explicitly.
  * `intptr_t` differences are modelled as `Int` subtractions.
  * The retry loops of the MPMC queue re-load `head_`/`tail_` and retry.
    Single-threadedly the reload returns the unchanged value, so a retry
    re-runs the identical iteration: the loop either exits within its first
    iteration or never exits.  The functions therefore return `Option`:
    `none` models the (single-threaded) infinite loop.
  * A spurious `compare_exchange_weak` failure only causes a retry of the
    same iteration, so the weak CAS is modelled as succeeding whenever its
    expected value matches (single-threadedly it always does).
-/

/-- One cell of the MPMC queue's backing array
(`struct Slot { std::atomic<size_t> sequence; T element; }`). -/
structure MPMCSlot (α : Type) where
  sequence : Nat
  element : α
deriving Repr

/-- State of `MPMCQueue<T, Capacity>`: producer counter `head_`, consumer
counter `tail_`, and the slot array `slots_` (indexed by physical slot;
only indices `< Capacity` are ever accessed, via `index & mask_`). -/
structure MPMCQueue (α : Type) (Capacity : Nat) where
  head_ : Nat
  tail_ : Nat
  slots_ : Nat → MPMCSlot α

variable {α : Type} {C : Nat}

/-- The constructor `MPMCQueue() : head_(0), tail_(0)` together with the
loop `slots_[i].sequence.store(i)`; the elements are default-constructed. -/
def MPMCQueue.mkQueue (α : Type) [Inhabited α] (Capacity : Nat) :
    MPMCQueue α Capacity :=
  { head_ := 0, tail_ := 0, slots_ := fun i => { sequence := i, element := default } }

/-- `MPMCQueue::enqueue`.  `mask_ = Capacity - 1`.  Reads `head_`, inspects
`slots_[head & mask_].sequence`, and branches on
`diff = (intptr_t)sequence - (intptr_t)head`:
`diff = 0` — the CAS `head_ : head → head+1` succeeds (single-threaded),
the value is stored and `sequence := head + 1` is published;
`diff < 0` — the queue is full, return `false`;
`diff > 0` — the code re-loads `head_` (unchanged) and loops forever
single-threadedly, modelled as `none`. -/
def MPMCQueue.enqueue (q : MPMCQueue α C) (value : α) :
    Option (MPMCQueue α C × Bool) :=
  let head := q.head_
  let slot := q.slots_ (head &&& (C - 1))
  let sequence := slot.sequence
  let diff : Int := (sequence : Int) - (head : Int)
  if diff ≠ 0 then
    if diff < 0 then
      some (q, false)
    else
      none
  else
    some ({ head_ := head + 1,
            tail_ := q.tail_,
            slots_ := fun j =>
              if j = head &&& (C - 1) then
                { sequence := head + 1, element := value }
              else q.slots_ j },
          true)

/-- `MPMCQueue::dequeue(T& result)`.  `result` is the caller's out-variable
(its prior contents are returned unchanged on the `false` path).  Branches
on `diff = (intptr_t)sequence - (intptr_t)tail - 1`: `diff = 0` — the CAS
`tail_ : tail → tail+1` succeeds, the element is moved out and
`sequence := tail + Capacity` is published; `diff < 0` — empty, return
`false`; `diff > 0` — single-threaded infinite loop, modelled as `none`. -/
def MPMCQueue.dequeue (q : MPMCQueue α C) (result : α) :
    Option (MPMCQueue α C × Bool × α) :=
  let tail := q.tail_
  let slot := q.slots_ (tail &&& (C - 1))
  let sequence := slot.sequence
  let diff : Int := (sequence : Int) - (tail : Int) - 1
  if diff ≠ 0 then
    if diff < 0 then
      some (q, false, result)
    else
      none
  else
    some ({ head_ := q.head_,
            tail_ := tail + 1,
            slots_ := fun j =>
              if j = tail &&& (C - 1) then
                { sequence := tail + C, element := slot.element }
              else q.slots_ j },
          true, slot.element)

/-- `std::optional<T> MPMCQueue::dequeue()`: declares `T result` (default
constructed), calls `dequeue(result)` and wraps the outcome. -/
def MPMCQueue.dequeueOpt [Inhabited α] (q : MPMCQueue α C) :
    Option (MPMCQueue α C × Option α) :=
  match q.dequeue default with
  | none => none
  | some (q', b, r) => some (q', if b then some r else none)

/-- `MPMCQueue::empty()`: `head_ == tail_`. -/
def MPMCQueue.emptyQ (q : MPMCQueue α C) : Bool :=
  q.head_ == q.tail_

/-- `MPMCQueue::size()`: `head >= tail ? head - tail : 0`. -/
def MPMCQueue.size (q : MPMCQueue α C) : Nat :=
  if q.head_ ≥ q.tail_ then q.head_ - q.tail_ else 0

/-- `MPMCQueue::capacity()`: the template parameter `Capacity`. -/
def MPMCQueue.capacityV (_ : MPMCQueue α C) : Nat := C

/-- State of `RingBuffer<T, Capacity>`: producer counter `head_`, consumer
counter `tail_`, and the value array `buffer_`. -/
structure RingBuffer (α : Type) (Capacity : Nat) where
  head_ : Nat
  tail_ : Nat
  buffer_ : Nat → α

/-- The `RingBuffer()` constructor: both counters 0, every element
default-constructed (the pre-faulting loop `new (&buffer_[i]) T()`). -/
def RingBuffer.mkBuffer (α : Type) [Inhabited α] (Capacity : Nat) :
    RingBuffer α Capacity :=
  { head_ := 0, tail_ := 0, buffer_ := fun _ => default }

/-- `RingBuffer::try_enqueue`.  Checks `next_head - tail > Capacity`
(`size_t` subtraction; `next_head = head + 1 > tail` on every state the
sequential program reaches, so `Nat` subtraction agrees), then stores the
item at `head & mask_` and publishes `head_ := next_head`. -/
def RingBuffer.try_enqueue (q : RingBuffer α C) (item : α) :
    RingBuffer α C × Bool :=
  let head := q.head_
  let next_head := head + 1
  let tail := q.tail_
  if next_head - tail > C then
    (q, false)
  else
    ({ head_ := next_head,
       tail_ := q.tail_,
       buffer_ := fun j => if j = head &&& (C - 1) then item else q.buffer_ j },
     true)

/-- `RingBuffer::try_dequeue(T& result)`.  Checks `head <= tail` (empty),
otherwise moves `buffer_[tail & mask_]` into `result` and advances `tail_`
by compare-exchange (which succeeds single-threadedly). -/
def RingBuffer.try_dequeue (q : RingBuffer α C) (result : α) :
    RingBuffer α C × Bool × α :=
  let tail := q.tail_
  let head := q.head_
  if head ≤ tail then
    (q, false, result)
  else
    ({ head_ := q.head_, tail_ := tail + 1, buffer_ := q.buffer_ },
     true, q.buffer_ (tail &&& (C - 1)))

/-- `std::optional<T> RingBuffer::try_dequeue()`: the separately coded
optional-returning form. -/
def RingBuffer.tryDequeueOpt (q : RingBuffer α C) :
    RingBuffer α C × Option α :=
  let tail := q.tail_
  let head := q.head_
  if head ≤ tail then
    (q, none)
  else
    ({ head_ := q.head_, tail_ := tail + 1, buffer_ := q.buffer_ },
     some (q.buffer_ (tail &&& (C - 1))))

/-- `RingBuffer::size()`: `head - tail` (`size_t` subtraction; `Nat`
subtraction agrees on all sequentially reachable states, where
`tail_ ≤ head_`). -/
def RingBuffer.size (q : RingBuffer α C) : Nat :=
  q.head_ - q.tail_

/-- `RingBuffer::empty()`: `size() == 0`. -/
def RingBuffer.emptyQ (q : RingBuffer α C) : Bool :=
  q.size == 0

/-- `RingBuffer::full()`: `size() >= Capacity`. -/
def RingBuffer.full (q : RingBuffer α C) : Bool :=
  q.size ≥ C

/-- `RingBuffer::capacity()`. -/
def RingBuffer.capacityV (_ : RingBuffer α C) : Nat := C

/-- The `~RingBuffer()` loop `while (head != tail) { buffer_[head & mask_].~T(); head++; }`
run for `fuel` iterations, returning the physical indices passed to the
element destructor in order.  `head` is a `size_t`, so its increment wraps
modulo `2^64` — the loop's termination depends on this wraparound, hence it
is modelled explicitly here. -/
def ringDtorLoop (C : Nat) : Nat → Nat → Nat → List Nat
  | 0, _, _ => []
  | fuel + 1, head, tail =>
    if head = tail then []
    else (head &&& (C - 1)) :: ringDtorLoop C fuel ((head + 1) % 2 ^ 64) tail

/-- The physical indices destroyed by the first `fuel` iterations of the
`~RingBuffer()` loop, started from the buffer's current counters. -/
def RingBuffer.dtorDestroyed (q : RingBuffer α C) (fuel : Nat) : List Nat :=
  ringDtorLoop C fuel q.head_ q.tail_

/-- Sequentially reachable states of `MPMCQueue`: produced from a freshly
constructed queue by any finite sequence of `enqueue` / `dequeue` calls
that run to completion (`dequeueOpt` is `dequeue` on a default-constructed
out-variable, so it is covered by the `deq` step). -/
inductive MReach (α : Type) [Inhabited α] (C : Nat) : MPMCQueue α C → Prop where
  | init : MReach α C (MPMCQueue.mkQueue α C)
  | enq : ∀ q v q' b, MReach α C q → MPMCQueue.enqueue q v = some (q', b) →
      MReach α C q'
  | deq : ∀ q r q' b res, MReach α C q →
      MPMCQueue.dequeue q r = some (q', b, res) → MReach α C q'

/-- Sequentially reachable states of `RingBuffer`. -/
inductive RReach (α : Type) [Inhabited α] (C : Nat) : RingBuffer α C → Prop where
  | init : RReach α C (RingBuffer.mkBuffer α C)
  | enq : ∀ q v, RReach α C q → RReach α C (RingBuffer.try_enqueue q v).1
  | deq : ∀ q r, RReach α C q → RReach α C (RingBuffer.try_dequeue q r).1
  | deqOpt : ∀ q, RReach α C q → RReach α C (RingBuffer.tryDequeueOpt q).1

/-- Run a list of `enqueue`s in order, collecting the returned booleans. -/
def MPMCQueue.runEnqs : MPMCQueue α C → List α → Option (MPMCQueue α C × List Bool)
  | q, [] => some (q, [])
  | q, v :: vs =>
    match q.enqueue v with
    | none => none
    | some (q', b) =>
      match MPMCQueue.runEnqs q' vs with
      | none => none
      | some (q'', bs) => some (q'', b :: bs)

/-- Run `n` `dequeue()` (optional form) calls, collecting the results. -/
def MPMCQueue.runDeqs [Inhabited α] : MPMCQueue α C → Nat → Option (MPMCQueue α C × List (Option α))
  | q, 0 => some (q, [])
  | q, n + 1 =>
    match q.dequeueOpt with
    | none => none
    | some (q', r) =>
      match MPMCQueue.runDeqs q' n with
      | none => none
      | some (q'', rs) => some (q'', r :: rs)

/-- Fill-then-drain cycles: for each cycle, enqueue the cycle's list, then
dequeue as many times as the list is long; collect per-cycle outcomes. -/
def MPMCQueue.runCycles [Inhabited α] : MPMCQueue α C → List (List α) →
    Option (MPMCQueue α C × List (List Bool × List (Option α)))
  | q, [] => some (q, [])
  | q, c :: cs =>
    match MPMCQueue.runEnqs q c with
    | none => none
    | some (q1, bs) =>
      match MPMCQueue.runDeqs q1 c.length with
      | none => none
      | some (q2, rs) =>
        match MPMCQueue.runCycles q2 cs with
        | none => none
        | some (q3, out) => some (q3, (bs, rs) :: out)

/-- Run a list of `try_enqueue`s in order, collecting the returned booleans. -/
def RingBuffer.runEnqs : RingBuffer α C → List α → RingBuffer α C × List Bool
  | q, [] => (q, [])
  | q, v :: vs =>
    let p := q.try_enqueue v
    let p' := RingBuffer.runEnqs p.1 vs
    (p'.1, p.2 :: p'.2)

/-- Run `n` `try_dequeue()` (optional form) calls, collecting the results. -/
def RingBuffer.runDeqs : RingBuffer α C → Nat → RingBuffer α C × List (Option α)
  | q, 0 => (q, [])
  | q, n + 1 =>
    let p := q.tryDequeueOpt
    let p' := RingBuffer.runDeqs p.1 n
    (p'.1, p.2 :: p'.2)

/-- Fill-then-drain cycles for the ring buffer. -/
def RingBuffer.runCycles : RingBuffer α C → List (List α) →
    RingBuffer α C × List (List Bool × List (Option α))
  | q, [] => (q, [])
  | q, c :: cs =>
    let p1 := RingBuffer.runEnqs q c
    let p2 := RingBuffer.runDeqs p1.1 c.length
    let p3 := RingBuffer.runCycles p2.1 cs
    (p3.1, (p1.2, p2.2) :: p3.2)

/-! ### Abstraction: logical contents and invariants -/

/-- The absolute index in the size-`C` window `[t, t+C)` that is congruent
to `j` modulo `C` — the next absolute index at which physical slot `j` will
be claimed by a producer whose window starts at `t`. -/
def winIdx (t C j : Nat) : Nat := t + (j + C - t % C) % C

/-- Sequential invariant of the MPMC queue: the counters are ordered and
within capacity of each other, and each physical slot's generation is
determined by where its window index lies relative to `head_`. -/
def MInv (q : MPMCQueue α C) : Prop :=
  q.tail_ ≤ q.head_ ∧ q.head_ ≤ q.tail_ + C ∧
  ∀ j, j < C →
    (q.slots_ j).sequence =
      (if winIdx q.tail_ C j < q.head_ then winIdx q.tail_ C j + 1
       else winIdx q.tail_ C j)

/-- Logical contents of the MPMC queue, oldest first. -/
def mContent (q : MPMCQueue α C) : List α :=
  (List.range (q.head_ - q.tail_)).map fun i =>
    (q.slots_ ((q.tail_ + i) % C)).element

/-- Sequential invariant of the ring buffer: counters ordered and within
capacity. -/
def RInv (q : RingBuffer α C) : Prop :=
  q.tail_ ≤ q.head_ ∧ q.head_ ≤ q.tail_ + C

/-- Logical contents of the ring buffer, oldest first. -/
def rContent (q : RingBuffer α C) : List α :=
  (List.range (q.head_ - q.tail_)).map fun i =>
    q.buffer_ ((q.tail_ + i) % C)

/-! ### Concrete states used to instantiate the general theorems -/

/-- Capacity-2 MPMC queue after one `enqueue(5)` on a fresh queue. -/
def mpmcW1 : MPMCQueue Nat 2 :=
  (((MPMCQueue.mkQueue Nat 2).enqueue 5).getD (MPMCQueue.mkQueue Nat 2, false)).1

/-- `mpmcW1` after one successful `dequeue`. -/
def mpmcW2 : MPMCQueue Nat 2 :=
  ((mpmcW1.dequeue 0).getD (mpmcW1, false, 0)).1

/-- A full capacity-2 MPMC state: `mpmcW1` after a second `enqueue(9)`. -/
def mpmcWFull : MPMCQueue Nat 2 :=
  ((mpmcW1.enqueue 9).getD (mpmcW1, false)).1

/-- Capacity-2 ring buffer after one `try_enqueue(7)` on a fresh buffer. -/
def ringW1 : RingBuffer Nat 2 :=
  ((RingBuffer.mkBuffer Nat 2).try_enqueue 7).1

/-- A full capacity-2 ring-buffer state: `ringW1` after a second
`try_enqueue(9)`. -/
def ringWFull : RingBuffer Nat 2 :=
  (ringW1.try_enqueue 9).1

/-! ### Window arithmetic -/

lemma and_mask_eq_mod (x m : Nat) : x &&& (2 ^ m - 1) = x % 2 ^ m :=
  Nat.and_pow_two_sub_one_eq_mod x m

lemma winIdx_ge (t C j : Nat) : t ≤ winIdx t C j :=
  Nat.le_add_right _ _

lemma winIdx_lt {C : Nat} (hC : 0 < C) (t j : Nat) : winIdx t C j < t + C := by
  unfold winIdx
  have := Nat.mod_lt (j + C - t % C) hC
  omega

lemma winIdx_mod {C : Nat} (hC : 0 < C) (t : Nat) {j : Nat} (hj : j < C) :
    winIdx t C j % C = j := by
  unfold winIdx
  have h1 : t % C < C := Nat.mod_lt t hC
  have h2 : t % C + C * (t / C) = t := Nat.mod_add_div t C
  rw [Nat.add_mod_mod]
  have h3 : t + (j + C - t % C) = C * (t / C) + (j + C) := by omega
  rw [h3, Nat.mul_add_mod, Nat.add_mod_right, Nat.mod_eq_of_lt hj]

lemma window_unique {t C a b : Nat} (hC : 0 < C) (ha1 : t ≤ a) (ha2 : a < t + C)
    (hb1 : t ≤ b) (hb2 : b < t + C) (hab : a % C = b % C) : a = b := by
  rcases Nat.le_total a b with h | h
  · have hd : C ∣ b - a := (Nat.modEq_iff_dvd' h).mp hab
    have hz : b - a = 0 := Nat.eq_zero_of_dvd_of_lt hd (by omega)
    omega
  · have hd : C ∣ a - b := (Nat.modEq_iff_dvd' h).mp hab.symm
    have hz : a - b = 0 := Nat.eq_zero_of_dvd_of_lt hd (by omega)
    omega

lemma winIdx_eq_self {t C h : Nat} (hC : 0 < C) (h1 : t ≤ h) (h2 : h < t + C) :
    winIdx t C (h % C) = h := by
  have hm : h % C < C := Nat.mod_lt _ hC
  exact window_unique hC (winIdx_ge _ _ _) (winIdx_lt hC _ _) h1 h2
    (winIdx_mod hC t hm)

lemma winIdx_ne {t C h j : Nat} (hC : 0 < C) (hj : j < C) (hne : j ≠ h % C) :
    winIdx t C j ≠ h := by
  intro he
  have := winIdx_mod hC t hj
  rw [he] at this
  exact hne this.symm

lemma winIdx_shift {t C j : Nat} (hC : 0 < C) (hj : j < C) (hne : j ≠ t % C) :
    winIdx (t + 1) C j = winIdx t C j := by
  have hw1 : t ≤ winIdx t C j := winIdx_ge _ _ _
  have hw2 : winIdx t C j < t + C := winIdx_lt hC _ _
  have hwne : winIdx t C j ≠ t := by
    intro he
    have := winIdx_mod hC t hj
    rw [he] at this
    exact hne this.symm
  refine window_unique hC (winIdx_ge _ _ _) (winIdx_lt hC _ _) (by omega)
    (by omega) ?_
  rw [winIdx_mod hC _ hj, winIdx_mod hC _ hj]

lemma winIdx_wrap {t C : Nat} (hC : 0 < C) :
    winIdx (t + 1) C (t % C) = t + C := by
  refine window_unique hC (winIdx_ge _ _ _) (winIdx_lt hC _ _) (by omega)
    (by omega) ?_
  rw [winIdx_mod hC _ (Nat.mod_lt _ hC), Nat.add_mod_right]


/-! ### MPMC queue: sequential step lemmas -/

lemma mpmc_inv_init {α : Type} [Inhabited α] {C m : Nat} (hC : C = 2 ^ m) :
    MInv (MPMCQueue.mkQueue α C) ∧ mContent (MPMCQueue.mkQueue α C) = [] := by
  have hCpos : 0 < C := hC ▸ Nat.two_pow_pos m
  refine ⟨⟨Nat.le_refl _, by simp [MPMCQueue.mkQueue], ?_⟩,
    by simp [mContent, MPMCQueue.mkQueue]⟩
  intro j hj
  have hwj : winIdx 0 C j = j := by
    unfold winIdx
    simp [Nat.mod_eq_of_lt hj]
  simp [MPMCQueue.mkQueue, hwj]

lemma mpmc_enqueue_notFull {α : Type} {C m : Nat} (hC : C = 2 ^ m)
    (q : MPMCQueue α C) (hinv : MInv q) (hnf : q.head_ < q.tail_ + C) (v : α) :
    ∃ q', q.enqueue v = some (q', true) ∧ MInv q' ∧
      q'.head_ = q.head_ + 1 ∧ q'.tail_ = q.tail_ ∧
      mContent q' = mContent q ++ [v] ∧
      (q'.slots_ (q.head_ % C)).sequence = q.head_ + 1 := by
  obtain ⟨ht, hhc, hseq⟩ := hinv
  have hCpos : 0 < C := hC ▸ Nat.two_pow_pos m
  have hmask : ∀ x : Nat, x &&& (C - 1) = x % C := by
    intro x; rw [hC]; exact and_mask_eq_mod x m
  have hj0 : q.head_ % C < C := Nat.mod_lt _ hCpos
  have hwin : winIdx q.tail_ C (q.head_ % C) = q.head_ :=
    winIdx_eq_self hCpos ht hnf
  have hs : (q.slots_ (q.head_ &&& (C - 1))).sequence = q.head_ := by
    rw [hmask, hseq _ hj0, hwin, if_neg (lt_irrefl _)]
  refine ⟨{ head_ := q.head_ + 1, tail_ := q.tail_,
            slots_ := fun j => if j = q.head_ &&& (C - 1)
              then { sequence := q.head_ + 1, element := v }
              else q.slots_ j },
          ?_,
          ⟨(by omega : q.tail_ ≤ q.head_ + 1),
           (by omega : q.head_ + 1 ≤ q.tail_ + C), ?_⟩,
          rfl, rfl, ?_, ?_⟩
  · simp [MPMCQueue.enqueue, hs]
  · intro j hj
    simp only [hmask]
    by_cases hje : j = q.head_ % C
    · subst hje
      have hif : (if q.head_ % C = q.head_ % C then
          ({ sequence := q.head_ + 1, element := v } : MPMCSlot α)
        else q.slots_ (q.head_ % C)) =
          { sequence := q.head_ + 1, element := v } := if_pos rfl
      rw [hif, hwin, if_pos (show q.head_ < q.head_ + 1 by omega)]
    · rw [if_neg hje, hseq j hj]
      have hne : winIdx q.tail_ C j ≠ q.head_ := winIdx_ne hCpos hj hje
      by_cases hlt : winIdx q.tail_ C j < q.head_
      · rw [if_pos hlt, if_pos (by omega)]
      · rw [if_neg hlt, if_neg (by omega)]
  · simp only [mContent, hmask]
    have hd : q.head_ + 1 - q.tail_ = (q.head_ - q.tail_) + 1 := by omega
    rw [hd, List.range_succ, List.map_append]
    congr 1
    · apply List.map_congr_left
      intro i hi
      have hi' : i < q.head_ - q.tail_ := List.mem_range.mp hi
      have hne : (q.tail_ + i) % C ≠ q.head_ % C := by
        intro he
        have : q.tail_ + i = q.head_ :=
          window_unique hCpos (Nat.le_add_right _ _) (by omega) ht hnf he
        omega
      simp only [if_neg hne]
    · have htd : q.tail_ + (q.head_ - q.tail_) = q.head_ := by omega
      simp [htd]
  · simp [hmask]

lemma mpmc_enqueue_full {α : Type} {C m : Nat} (hC : C = 2 ^ m) (h2 : 2 ≤ C)
    (q : MPMCQueue α C) (hinv : MInv q) (hf : q.head_ = q.tail_ + C) (v : α) :
    q.enqueue v = some (q, false) := by
  obtain ⟨ht, hhc, hseq⟩ := hinv
  have hCpos : 0 < C := by omega
  have hmask : ∀ x : Nat, x &&& (C - 1) = x % C := by
    intro x; rw [hC]; exact and_mask_eq_mod x m
  have hj0 : q.tail_ % C < C := Nat.mod_lt _ hCpos
  have hwin : winIdx q.tail_ C (q.tail_ % C) = q.tail_ :=
    winIdx_eq_self hCpos (Nat.le_refl _) (by omega)
  have hmod : q.head_ % C = q.tail_ % C := by
    rw [hf, Nat.add_mod_right]
  have hs : (q.slots_ (q.head_ &&& (C - 1))).sequence = q.tail_ + 1 := by
    rw [hmask, hmod, hseq _ hj0, hwin, if_pos (by omega)]
  simp only [MPMCQueue.enqueue, hs]
  have hcast : (q.head_ : Int) = (q.tail_ : Int) + (C : Int) := by
    rw [hf]; push_cast; ring
  have hC2 : (2 : Int) ≤ (C : Int) := by exact_mod_cast h2
  have hcond : ((q.tail_ + 1 : Nat) : Int) - (q.head_ : Int) ≠ 0 := by
    rw [hcast]; push_cast; omega
  have hlt : ((q.tail_ + 1 : Nat) : Int) - (q.head_ : Int) < 0 := by
    rw [hcast]; push_cast; omega
  rw [if_pos hcond, if_pos hlt]

lemma mpmc_dequeue_nonempty {α : Type} {C m : Nat} (hC : C = 2 ^ m)
    (q : MPMCQueue α C) (hinv : MInv q) (hne : q.tail_ < q.head_) (r : α) :
    ∃ q', q.dequeue r = some (q', true, (q.slots_ (q.tail_ % C)).element) ∧
      MInv q' ∧ q'.head_ = q.head_ ∧ q'.tail_ = q.tail_ + 1 ∧
      mContent q = (q.slots_ (q.tail_ % C)).element :: mContent q' ∧
      (q'.slots_ (q.tail_ % C)).sequence = q.tail_ + C := by
  obtain ⟨ht, hhc, hseq⟩ := hinv
  have hCpos : 0 < C := hC ▸ Nat.two_pow_pos m
  have hmask : ∀ x : Nat, x &&& (C - 1) = x % C := by
    intro x; rw [hC]; exact and_mask_eq_mod x m
  have hj0 : q.tail_ % C < C := Nat.mod_lt _ hCpos
  have hwin : winIdx q.tail_ C (q.tail_ % C) = q.tail_ :=
    winIdx_eq_self hCpos (Nat.le_refl _) (by omega)
  have hs : (q.slots_ (q.tail_ &&& (C - 1))).sequence = q.tail_ + 1 := by
    rw [hmask, hseq _ hj0, hwin, if_pos (by omega)]
  have helem : (q.slots_ (q.tail_ &&& (C - 1))).element =
      (q.slots_ (q.tail_ % C)).element := by rw [hmask]
  refine ⟨{ head_ := q.head_, tail_ := q.tail_ + 1,
            slots_ := fun j => if j = q.tail_ &&& (C - 1)
              then { sequence := q.tail_ + C,
                     element := (q.slots_ (q.tail_ &&& (C - 1))).element }
              else q.slots_ j },
          ?_,
          ⟨(by omega : q.tail_ + 1 ≤ q.head_),
           (by omega : q.head_ ≤ q.tail_ + 1 + C), ?_⟩,
          rfl, rfl, ?_, ?_⟩
  · simp [MPMCQueue.dequeue, hs, helem]
  · intro j hj
    simp only [hmask]
    by_cases hje : j = q.tail_ % C
    · subst hje
      have hif : (if q.tail_ % C = q.tail_ % C then
          ({ sequence := q.tail_ + C,
             element := (q.slots_ (q.tail_ % C)).element } : MPMCSlot α)
        else q.slots_ (q.tail_ % C)) =
          { sequence := q.tail_ + C,
            element := (q.slots_ (q.tail_ % C)).element } := if_pos rfl
      rw [hif, winIdx_wrap hCpos,
        if_neg (show ¬ q.tail_ + C < q.head_ by omega)]
    · rw [if_neg hje, hseq j hj, winIdx_shift hCpos hj hje]
  · have helemAll : ∀ x : Nat,
        (if x = q.tail_ % C then
            ({ sequence := q.tail_ + C,
               element := (q.slots_ (q.tail_ % C)).element } : MPMCSlot α)
          else q.slots_ x).element = (q.slots_ x).element := by
      intro x
      by_cases hx : x = q.tail_ % C
      · rw [if_pos hx, hx]
      · rw [if_neg hx]
    simp only [mContent, hmask, helemAll]
    have hd : q.head_ - q.tail_ = q.head_ - (q.tail_ + 1) + 1 := by omega
    rw [hd, List.range_succ_eq_map, List.map_cons, List.map_map]
    congr 1
    all_goals
      try (apply List.map_congr_left
           intro i hi
           simp only [Function.comp]
           have harg : q.tail_ + Nat.succ i = q.tail_ + 1 + i := by omega
           rw [harg])
  · simp [hmask]

lemma mpmc_dequeue_empty_case {α : Type} {C m : Nat} (hC : C = 2 ^ m)
    (q : MPMCQueue α C) (hinv : MInv q) (he : q.head_ = q.tail_) (r : α) :
    q.dequeue r = some (q, false, r) := by
  obtain ⟨ht, hhc, hseq⟩ := hinv
  have hCpos : 0 < C := hC ▸ Nat.two_pow_pos m
  have hmask : ∀ x : Nat, x &&& (C - 1) = x % C := by
    intro x; rw [hC]; exact and_mask_eq_mod x m
  have hj0 : q.tail_ % C < C := Nat.mod_lt _ hCpos
  have hwin : winIdx q.tail_ C (q.tail_ % C) = q.tail_ :=
    winIdx_eq_self hCpos (Nat.le_refl _) (by omega)
  have hs : (q.slots_ (q.tail_ &&& (C - 1))).sequence = q.tail_ := by
    rw [hmask, hseq _ hj0, hwin, if_neg (by omega)]
  simp only [MPMCQueue.dequeue, hs]
  have hcond : ((q.tail_ : Nat) : Int) - (q.tail_ : Int) - 1 ≠ 0 := by omega
  have hlt : ((q.tail_ : Nat) : Int) - (q.tail_ : Int) - 1 < 0 := by omega
  rw [if_pos hcond, if_pos hlt]

lemma mpmc_reach_inv {α : Type} [Inhabited α] {C m : Nat} (hC : C = 2 ^ m)
    (h2 : 2 ≤ C) : ∀ q : MPMCQueue α C, MReach α C q → MInv q := by
  intro q hq
  induction hq with
  | init => exact (mpmc_inv_init hC).1
  | enq q0 v q' b hq0 hstep ih =>
    rcases Nat.lt_or_ge q0.head_ (q0.tail_ + C) with hlt | hge
    · obtain ⟨qq, he, hinv', -, -, -, -⟩ := mpmc_enqueue_notFull hC q0 ih hlt v
      rw [he] at hstep
      have hqq : qq = q' := by
        injection hstep with h
        exact congrArg Prod.fst h
      rw [← hqq]
      exact hinv'
    · have hf : q0.head_ = q0.tail_ + C := le_antisymm ih.2.1 hge
      have he := mpmc_enqueue_full hC h2 q0 ih hf v
      rw [he] at hstep
      have hqq : q0 = q' := by
        injection hstep with h
        exact congrArg Prod.fst h
      rw [← hqq]
      exact ih
  | deq q0 r q' b res hq0 hstep ih =>
    rcases Nat.lt_or_ge q0.tail_ q0.head_ with hlt | hge
    · obtain ⟨qq, he, hinv', -, -, -, -⟩ := mpmc_dequeue_nonempty hC q0 ih hlt r
      rw [he] at hstep
      have hqq : qq = q' := by
        injection hstep with h
        exact congrArg Prod.fst h
      rw [← hqq]
      exact hinv'
    · have hfe : q0.head_ = q0.tail_ := le_antisymm hge ih.1
      have he := mpmc_dequeue_empty_case hC q0 ih hfe r
      rw [he] at hstep
      have hqq : q0 = q' := by
        injection hstep with h
        exact congrArg Prod.fst h
      rw [← hqq]
      exact ih

/-! ### Ring buffer: sequential step lemmas -/

lemma ring_inv_init {α : Type} [Inhabited α] {C : Nat} :
    RInv (RingBuffer.mkBuffer α C) ∧ rContent (RingBuffer.mkBuffer α C) = [] := by
  refine ⟨⟨Nat.le_refl _, Nat.le_add_right _ _⟩, ?_⟩
  simp [rContent, RingBuffer.mkBuffer]

lemma ring_enqueue_notFull {α : Type} {C m : Nat} (hC : C = 2 ^ m)
    (q : RingBuffer α C) (hinv : RInv q) (hnf : q.head_ < q.tail_ + C) (v : α) :
    ∃ q', q.try_enqueue v = (q', true) ∧ RInv q' ∧
      q'.head_ = q.head_ + 1 ∧ q'.tail_ = q.tail_ ∧
      rContent q' = rContent q ++ [v] := by
  obtain ⟨ht, hhc⟩ := hinv
  have hCpos : 0 < C := hC ▸ Nat.two_pow_pos m
  have hmask : ∀ x : Nat, x &&& (C - 1) = x % C := by
    intro x; rw [hC]; exact and_mask_eq_mod x m
  refine ⟨{ head_ := q.head_ + 1, tail_ := q.tail_,
            buffer_ := fun j => if j = q.head_ &&& (C - 1) then v
              else q.buffer_ j },
          ?_,
          ⟨(by omega : q.tail_ ≤ q.head_ + 1),
           (by omega : q.head_ + 1 ≤ q.tail_ + C)⟩,
          rfl, rfl, ?_⟩
  · have hg : ¬ (q.head_ + 1 - q.tail_ > C) := by omega
    simp [RingBuffer.try_enqueue, hg]
  · simp only [rContent, hmask]
    have hd : q.head_ + 1 - q.tail_ = (q.head_ - q.tail_) + 1 := by omega
    rw [hd, List.range_succ, List.map_append]
    congr 1
    · apply List.map_congr_left
      intro i hi
      have hi' : i < q.head_ - q.tail_ := List.mem_range.mp hi
      have hne : (q.tail_ + i) % C ≠ q.head_ % C := by
        intro he
        have : q.tail_ + i = q.head_ :=
          window_unique hCpos (Nat.le_add_right _ _) (by omega) ht hnf he
        omega
      simp only [if_neg hne]
    · have htd : q.tail_ + (q.head_ - q.tail_) = q.head_ := by omega
      simp [htd]

lemma ring_enqueue_full {α : Type} {C : Nat} (q : RingBuffer α C)
    (hinv : RInv q) (hf : q.head_ = q.tail_ + C) (v : α) :
    q.try_enqueue v = (q, false) := by
  have hg : q.head_ + 1 - q.tail_ > C := by omega
  simp [RingBuffer.try_enqueue, hg]

lemma ring_dequeue_nonempty {α : Type} {C m : Nat} (hC : C = 2 ^ m)
    (q : RingBuffer α C) (hinv : RInv q) (hne : q.tail_ < q.head_) :
    ∃ q', (∀ r, q.try_dequeue r = (q', true, q.buffer_ (q.tail_ % C))) ∧
      q.tryDequeueOpt = (q', some (q.buffer_ (q.tail_ % C))) ∧ RInv q' ∧
      q'.head_ = q.head_ ∧ q'.tail_ = q.tail_ + 1 ∧ q'.buffer_ = q.buffer_ ∧
      rContent q = q.buffer_ (q.tail_ % C) :: rContent q' := by
  obtain ⟨ht, hhc⟩ := hinv
  have hCpos : 0 < C := hC ▸ Nat.two_pow_pos m
  have hmask : ∀ x : Nat, x &&& (C - 1) = x % C := by
    intro x; rw [hC]; exact and_mask_eq_mod x m
  have hg : ¬ (q.head_ ≤ q.tail_) := by omega
  refine ⟨{ head_ := q.head_, tail_ := q.tail_ + 1, buffer_ := q.buffer_ },
      ?_, ?_,
      ⟨(by omega : q.tail_ + 1 ≤ q.head_),
       (by omega : q.head_ ≤ q.tail_ + 1 + C)⟩,
      rfl, rfl, rfl, ?_⟩
  · intro r
    simp [RingBuffer.try_dequeue, hg, hmask]
  · simp [RingBuffer.tryDequeueOpt, hg, hmask]
  · simp only [rContent]
    have hd : q.head_ - q.tail_ = q.head_ - (q.tail_ + 1) + 1 := by omega
    rw [hd, List.range_succ_eq_map, List.map_cons, List.map_map]
    congr 1
    all_goals
      try (apply List.map_congr_left
           intro i hi
           simp only [Function.comp]
           have harg : q.tail_ + Nat.succ i = q.tail_ + 1 + i := by omega
           rw [harg])

lemma ring_dequeue_empty_case {α : Type} {C : Nat} (q : RingBuffer α C)
    (he : q.head_ ≤ q.tail_) :
    (∀ r, q.try_dequeue r = (q, false, r)) ∧ q.tryDequeueOpt = (q, none) := by
  constructor
  · intro r
    simp [RingBuffer.try_dequeue, he]
  · simp [RingBuffer.tryDequeueOpt, he]

lemma ring_reach_inv {α : Type} [Inhabited α] {C : Nat} :
    ∀ q : RingBuffer α C, RReach α C q → RInv q := by
  intro q hq
  induction hq with
  | init => exact ⟨Nat.le_refl _, Nat.le_add_right _ _⟩
  | enq q0 v hq0 ih =>
    obtain ⟨ht, hhc⟩ := ih
    by_cases hg : q0.head_ + 1 - q0.tail_ > C
    · simp [RingBuffer.try_enqueue, hg]
      exact ⟨ht, hhc⟩
    · simp [RingBuffer.try_enqueue, hg]
      exact ⟨(by omega : q0.tail_ ≤ q0.head_ + 1),
             (by omega : q0.head_ + 1 ≤ q0.tail_ + C)⟩
  | deq q0 r hq0 ih =>
    obtain ⟨ht, hhc⟩ := ih
    by_cases hg : q0.head_ ≤ q0.tail_
    · simp [RingBuffer.try_dequeue, hg]
      exact ⟨ht, hhc⟩
    · simp [RingBuffer.try_dequeue, hg]
      exact ⟨(by omega : q0.tail_ + 1 ≤ q0.head_),
             (by omega : q0.head_ ≤ q0.tail_ + 1 + C)⟩
  | deqOpt q0 hq0 ih =>
    obtain ⟨ht, hhc⟩ := ih
    by_cases hg : q0.head_ ≤ q0.tail_
    · simp [RingBuffer.tryDequeueOpt, hg]
      exact ⟨ht, hhc⟩
    · simp [RingBuffer.tryDequeueOpt, hg]
      exact ⟨(by omega : q0.tail_ + 1 ≤ q0.head_),
             (by omega : q0.head_ ≤ q0.tail_ + 1 + C)⟩

/-! ### Multi-operation runs -/

lemma mpmc_runEnqs_ok {α : Type} [Inhabited α] {C m : Nat} (hC : C = 2 ^ m) :
    ∀ (vs : List α) (q : MPMCQueue α C), MInv q →
      q.head_ + vs.length ≤ q.tail_ + C →
      ∃ q', MPMCQueue.runEnqs q vs = some (q', List.replicate vs.length true) ∧
        MInv q' ∧ q'.head_ = q.head_ + vs.length ∧ q'.tail_ = q.tail_ ∧
        mContent q' = mContent q ++ vs := by
  intro vs
  induction vs with
  | nil =>
    intro q hinv hlen
    exact ⟨q, rfl, hinv, by simp, rfl, by simp⟩
  | cons v vs ih =>
    intro q hinv hlen
    simp only [List.length_cons] at hlen
    have hnf : q.head_ < q.tail_ + C := by omega
    obtain ⟨q1, he, hinv1, hh1, ht1, hc1, -⟩ :=
      mpmc_enqueue_notFull hC q hinv hnf v
    obtain ⟨q', hrun, hinv', hh', ht', hc'⟩ := ih q1 hinv1 (by omega)
    refine ⟨q', ?_, hinv', by simp only [List.length_cons]; omega,
      by omega, ?_⟩
    · simp [MPMCQueue.runEnqs, he, hrun, List.replicate_succ]
    · rw [hc', hc1]
      simp

lemma mpmc_runDeqs_ok {α : Type} [Inhabited α] {C m : Nat} (hC : C = 2 ^ m) :
    ∀ (n : Nat) (q : MPMCQueue α C), MInv q → q.head_ = q.tail_ + n →
      ∃ q', MPMCQueue.runDeqs q n = some (q', (mContent q).map some) ∧
        MInv q' ∧ q'.head_ = q.head_ ∧ q'.tail_ = q.head_ ∧
        mContent q' = [] := by
  intro n
  induction n with
  | zero =>
    intro q hinv hn
    have hzero : q.head_ - q.tail_ = 0 := by omega
    have hc : mContent q = [] := by simp [mContent, hzero]
    refine ⟨q, ?_, hinv, rfl, by omega, hc⟩
    simp [MPMCQueue.runDeqs, hc]
  | succ n ih =>
    intro q hinv hn
    have hne : q.tail_ < q.head_ := by omega
    obtain ⟨q1, hd, hinv1, hh1, ht1, hcons, -⟩ :=
      mpmc_dequeue_nonempty hC q hinv hne default
    have hdo : q.dequeueOpt =
        some (q1, some ((q.slots_ (q.tail_ % C)).element)) := by
      simp [MPMCQueue.dequeueOpt, hd]
    obtain ⟨q', hrun, hinv', hh', ht', hc'⟩ := ih q1 hinv1 (by omega)
    refine ⟨q', ?_, hinv', by omega, by omega, hc'⟩
    simp [MPMCQueue.runDeqs, hdo, hrun, hcons]

lemma mpmc_runCycles_ok {α : Type} [Inhabited α] {C m : Nat} (hC : C = 2 ^ m) :
    ∀ (cycles : List (List α)) (q : MPMCQueue α C), MInv q →
      q.head_ = q.tail_ → (∀ c ∈ cycles, c.length ≤ C) →
      ∃ q', MPMCQueue.runCycles q cycles =
          some (q', cycles.map fun c =>
            (List.replicate c.length true, c.map some)) ∧
        MInv q' ∧ q'.head_ = q'.tail_ := by
  intro cycles
  induction cycles with
  | nil =>
    intro q hinv he hlen
    exact ⟨q, rfl, hinv, he⟩
  | cons c cs ih =>
    intro q hinv he hlen
    have hzero : q.head_ - q.tail_ = 0 := by omega
    have hc0 : mContent q = [] := by simp [mContent, hzero]
    obtain ⟨q1, hrunE, hinv1, hh1, ht1, hcont1⟩ :=
      mpmc_runEnqs_ok hC c q hinv
        (by have := hlen c (List.mem_cons_self c cs); omega)
    obtain ⟨q2, hrunD, hinv2, hh2, ht2, hc2⟩ :=
      mpmc_runDeqs_ok hC c.length q1 hinv1 (by omega)
    obtain ⟨q', hrunC, hinv', he'⟩ :=
      ih q2 hinv2 (by omega) (fun d hd => hlen d (List.mem_cons_of_mem _ hd))
    refine ⟨q', ?_, hinv', he'⟩
    simp [MPMCQueue.runCycles, hrunE, hrunD, hrunC, hcont1, hc0]

lemma ring_runEnqs_ok {α : Type} [Inhabited α] {C m : Nat} (hC : C = 2 ^ m) :
    ∀ (vs : List α) (q : RingBuffer α C), RInv q →
      q.head_ + vs.length ≤ q.tail_ + C →
      ∃ q', RingBuffer.runEnqs q vs = (q', List.replicate vs.length true) ∧
        RInv q' ∧ q'.head_ = q.head_ + vs.length ∧ q'.tail_ = q.tail_ ∧
        rContent q' = rContent q ++ vs := by
  intro vs
  induction vs with
  | nil =>
    intro q hinv hlen
    exact ⟨q, rfl, hinv, by simp, rfl, by simp⟩
  | cons v vs ih =>
    intro q hinv hlen
    simp only [List.length_cons] at hlen
    have hnf : q.head_ < q.tail_ + C := by omega
    obtain ⟨q1, he, hinv1, hh1, ht1, hc1⟩ :=
      ring_enqueue_notFull hC q hinv hnf v
    obtain ⟨q', hrun, hinv', hh', ht', hc'⟩ := ih q1 hinv1 (by omega)
    refine ⟨q', ?_, hinv', by simp only [List.length_cons]; omega,
      by omega, ?_⟩
    · simp [RingBuffer.runEnqs, he, hrun, List.replicate_succ]
    · rw [hc', hc1]
      simp

lemma ring_runDeqs_ok {α : Type} [Inhabited α] {C m : Nat} (hC : C = 2 ^ m) :
    ∀ (n : Nat) (q : RingBuffer α C), RInv q → q.head_ = q.tail_ + n →
      ∃ q', RingBuffer.runDeqs q n = (q', (rContent q).map some) ∧
        RInv q' ∧ q'.head_ = q.head_ ∧ q'.tail_ = q.head_ ∧
        rContent q' = [] := by
  intro n
  induction n with
  | zero =>
    intro q hinv hn
    have hzero : q.head_ - q.tail_ = 0 := by omega
    have hc : rContent q = [] := by simp [rContent, hzero]
    refine ⟨q, ?_, hinv, rfl, by omega, hc⟩
    simp [RingBuffer.runDeqs, hc]
  | succ n ih =>
    intro q hinv hn
    have hne : q.tail_ < q.head_ := by omega
    obtain ⟨q1, -, hdo, hinv1, hh1, ht1, -, hcons⟩ :=
      ring_dequeue_nonempty hC q hinv hne
    obtain ⟨q', hrun, hinv', hh', ht', hc'⟩ := ih q1 hinv1 (by omega)
    refine ⟨q', ?_, hinv', by omega, by omega, hc'⟩
    simp [RingBuffer.runDeqs, hdo, hrun, hcons]

lemma ring_runCycles_ok {α : Type} [Inhabited α] {C m : Nat} (hC : C = 2 ^ m) :
    ∀ (cycles : List (List α)) (q : RingBuffer α C), RInv q →
      q.head_ = q.tail_ → (∀ c ∈ cycles, c.length ≤ C) →
      ∃ q', RingBuffer.runCycles q cycles =
          (q', cycles.map fun c =>
            (List.replicate c.length true, c.map some)) ∧
        RInv q' ∧ q'.head_ = q'.tail_ := by
  intro cycles
  induction cycles with
  | nil =>
    intro q hinv he hlen
    exact ⟨q, rfl, hinv, he⟩
  | cons c cs ih =>
    intro q hinv he hlen
    have hzero : q.head_ - q.tail_ = 0 := by omega
    have hc0 : rContent q = [] := by simp [rContent, hzero]
    obtain ⟨q1, hrunE, hinv1, hh1, ht1, hcont1⟩ :=
      ring_runEnqs_ok hC c q hinv
        (by have := hlen c (List.mem_cons_self c cs); omega)
    obtain ⟨q2, hrunD, hinv2, hh2, ht2, hc2⟩ :=
      ring_runDeqs_ok hC c.length q1 hinv1 (by omega)
    obtain ⟨q', hrunC, hinv', he'⟩ :=
      ih q2 hinv2 (by omega) (fun d hd => hlen d (List.mem_cons_of_mem _ hd))
    refine ⟨q', ?_, hinv', he'⟩
    simp [RingBuffer.runCycles, hrunE, hrunD, hrunC, hcont1, hc0]

/-! ### Claim theorems -/

/-- Claim C1 (capacity bound) — failing evaluation.  The static_assert of
`mpmc_queue.h` admits `Capacity = 1` (a power of two), but on a fresh
`MPMCQueue<T,1>` the first enqueue succeeds and fills the queue
(`head - tail = capacity = 1`), and the second enqueue — which the claim
and the function's own documentation require to return `false` — also
returns `true`, overcommitting the queue to `head - tail = 2 > capacity`. -/
theorem mpmc_capacity_bound_violated_at_capacity_one :
    ((MPMCQueue.mkQueue Nat 1).enqueue 10).map
        (fun p => (p.2, p.1.head_ - p.1.tail_)) = some (true, 1) ∧
    (((MPMCQueue.mkQueue Nat 1).enqueue 10).bind fun p =>
        (p.1.enqueue 20).map fun p2 => (p2.2, p2.1.head_ - p2.1.tail_))
      = some (true, 2) := by
  exact ⟨by decide, by decide⟩

/-- Claim C2: from a fresh queue, `N ≤ capacity` enqueues all succeed and
the following `N` dequeues return exactly the enqueued values in order —
for the MPMC queue and the ring buffer alike (distinctness of the values
is not needed). -/
theorem fifo_single_threaded (α : Type) [Inhabited α] (C m : Nat)
    (hC : C = 2 ^ m) (vs : List α) (hlen : vs.length ≤ C) :
    ((MPMCQueue.runEnqs (MPMCQueue.mkQueue α C) vs).bind fun p =>
        (MPMCQueue.runDeqs p.1 vs.length).map fun p2 => (p.2, p2.2))
      = some (List.replicate vs.length true, vs.map some) ∧
    ((RingBuffer.runEnqs (RingBuffer.mkBuffer α C) vs).2,
     (RingBuffer.runDeqs
        (RingBuffer.runEnqs (RingBuffer.mkBuffer α C) vs).1 vs.length).2)
      = (List.replicate vs.length true, vs.map some) := by
  obtain ⟨hinv0, hc0⟩ := mpmc_inv_init (α := α) hC
  obtain ⟨q1, hrunE, hinv1, hh1, ht1, hcont1⟩ :=
    mpmc_runEnqs_ok hC vs (MPMCQueue.mkQueue α C) hinv0
      (show (MPMCQueue.mkQueue α C).head_ + vs.length ≤
          (MPMCQueue.mkQueue α C).tail_ + C by
        simp only [MPMCQueue.mkQueue]
        omega)
  have hmk : (MPMCQueue.mkQueue α C).head_ = (MPMCQueue.mkQueue α C).tail_ :=
    rfl
  obtain ⟨q2, hrunD, -, -, -, -⟩ :=
    mpmc_runDeqs_ok hC vs.length q1 hinv1 (by omega)
  obtain ⟨rinv0, rc0⟩ := ring_inv_init (α := α) (C := C)
  obtain ⟨r1, hrunER, rinv1, rh1, rt1, rcont1⟩ :=
    ring_runEnqs_ok hC vs (RingBuffer.mkBuffer α C) rinv0
      (show (RingBuffer.mkBuffer α C).head_ + vs.length ≤
          (RingBuffer.mkBuffer α C).tail_ + C by
        simp only [RingBuffer.mkBuffer]
        omega)
  have hmkR : (RingBuffer.mkBuffer α C).head_ = (RingBuffer.mkBuffer α C).tail_ :=
    rfl
  obtain ⟨r2, hrunDR, -, -, -, -⟩ :=
    ring_runDeqs_ok hC vs.length r1 rinv1 (by omega)
  constructor
  · rw [hrunE]
    simp [hrunD, hcont1, hc0]
  · rw [hrunER, hrunDR, rcont1, rc0]
    simp

/-- Witness for C2 at `α = Nat`, capacity 2, values `[5, 7]`. -/
theorem fifo_single_threaded_witness :
    (2 : Nat) = 2 ^ 1 ∧ ([5, 7] : List Nat).length ≤ 2 ∧
    ((((MPMCQueue.runEnqs (MPMCQueue.mkQueue Nat 2) [5, 7]).bind fun p =>
        (MPMCQueue.runDeqs p.1 2).map fun p2 => (p.2, p2.2))
      = some ([true, true], [some 5, some 7])) ∧
     ((RingBuffer.runEnqs (RingBuffer.mkBuffer Nat 2) [5, 7]).2,
      (RingBuffer.runDeqs
        (RingBuffer.runEnqs (RingBuffer.mkBuffer Nat 2) [5, 7]).1 2).2)
      = ([true, true], [some 5, some 7])) :=
  ⟨rfl, by decide, fifo_single_threaded Nat 2 1 rfl [5, 7] (by decide)⟩

/-- Claim C3 — counterexample.  At the (allowed) capacity 1, the MPMC
queue violates "enqueue returns false iff full" and "success and
full/empty are the only outcomes": after one enqueue the queue is full
(`head - tail = 1 = capacity`), yet a second enqueue returns `true`; and
in the resulting state a dequeue neither succeeds nor reports empty — it
spins forever (modelled as `none`). -/
theorem mpmc_capacityOne_not_false_iff_full :
    ((MPMCQueue.mkQueue Nat 1).enqueue 10).map
        (fun p => p.1.head_ - p.1.tail_) = some 1 ∧
    (((MPMCQueue.mkQueue Nat 1).enqueue 10).bind fun p =>
        (p.1.enqueue 20).map Prod.snd) = some true ∧
    ((((MPMCQueue.mkQueue Nat 1).enqueue 10).bind fun p =>
        p.1.enqueue 20).bind fun p => p.1.dequeue 0).isNone = true := by
  exact ⟨by decide, by decide, by decide⟩

/-- Claim C3 as amended: on every sequentially reachable state,
enqueue/dequeue return `false`/`none` exactly on full/empty and always
terminate with one of those outcomes — for the MPMC queue at capacities
`≥ 2`, and for the ring buffer at every capacity. -/
theorem full_empty_iff_outcomes :
    (∀ (α : Type) [Inhabited α] (C m : Nat), C = 2 ^ m → 2 ≤ C →
      ∀ q : MPMCQueue α C, MReach α C q → ∀ v r : α,
        ((q.enqueue v).isSome = true ∧
         ((q.enqueue v).map Prod.snd = some false ↔
            q.head_ = q.tail_ + C)) ∧
        ((q.dequeue r).isSome = true ∧
         ((q.dequeue r).map (fun p => p.2.1) = some false ↔
            q.head_ = q.tail_))) ∧
    (∀ (α : Type) [Inhabited α] (C : Nat),
      ∀ q : RingBuffer α C, RReach α C q → ∀ v r : α,
        ((q.try_enqueue v).2 = false ↔ q.head_ = q.tail_ + C) ∧
        ((q.try_dequeue r).2.1 = false ↔ q.head_ = q.tail_) ∧
        (q.tryDequeueOpt.2 = none ↔ q.head_ = q.tail_)) := by
  constructor
  · intro α _ C m hC h2 q hq v r
    have hinv := mpmc_reach_inv hC h2 q hq
    have ht := hinv.1
    have hhc := hinv.2.1
    constructor
    · rcases Nat.lt_or_ge q.head_ (q.tail_ + C) with hlt | hge
      · obtain ⟨q1, he, -, -, -, -, -⟩ := mpmc_enqueue_notFull hC q hinv hlt v
        rw [he]
        exact ⟨rfl, iff_of_false (by simp) (by omega)⟩
      · have hf := le_antisymm hhc hge
        have he := mpmc_enqueue_full hC h2 q hinv hf v
        rw [he]
        exact ⟨rfl, iff_of_true rfl hf⟩
    · rcases Nat.lt_or_ge q.tail_ q.head_ with hlt | hge
      · obtain ⟨q1, hd, -, -, -, -, -⟩ := mpmc_dequeue_nonempty hC q hinv hlt r
        rw [hd]
        exact ⟨rfl, iff_of_false (by simp) (by omega)⟩
      · have hfe := le_antisymm hge ht
        have hd := mpmc_dequeue_empty_case hC q hinv hfe r
        rw [hd]
        exact ⟨rfl, iff_of_true rfl hfe⟩
  · intro α _ C q hq v r
    have hinv := ring_reach_inv q hq
    have ht := hinv.1
    have hhc := hinv.2
    refine ⟨?_, ?_, ?_⟩
    · by_cases hg : q.head_ + 1 - q.tail_ > C
      · have hres : (q.try_enqueue v).2 = false := by
          simp [RingBuffer.try_enqueue, hg]
        rw [hres]
        exact iff_of_true rfl (by omega)
      · have hres : (q.try_enqueue v).2 = true := by
          simp [RingBuffer.try_enqueue, hg]
        rw [hres]
        exact iff_of_false (by simp) (by omega)
    · by_cases hg : q.head_ ≤ q.tail_
      · have hres : (q.try_dequeue r).2.1 = false := by
          simp [RingBuffer.try_dequeue, hg]
        rw [hres]
        exact iff_of_true rfl (by omega)
      · have hres : (q.try_dequeue r).2.1 = true := by
          simp [RingBuffer.try_dequeue, hg]
        rw [hres]
        exact iff_of_false (by simp) (by omega)
    · by_cases hg : q.head_ ≤ q.tail_
      · have hres : q.tryDequeueOpt.2 = none := by
          simp [RingBuffer.tryDequeueOpt, hg]
        rw [hres]
        exact iff_of_true rfl (by omega)
      · have hres : q.tryDequeueOpt.2 =
            some (q.buffer_ (q.tail_ &&& (C - 1))) := by
          simp [RingBuffer.tryDequeueOpt, hg]
        rw [hres]
        exact iff_of_false (by simp) (by omega)

/-- Witness for the amended C3 at capacity 2, on the freshly constructed
(empty) queue and buffer. -/
theorem full_empty_iff_outcomes_witness :
    ((((MPMCQueue.mkQueue Nat 2).enqueue 3).isSome = true ∧
      (((MPMCQueue.mkQueue Nat 2).enqueue 3).map Prod.snd = some false ↔
        (MPMCQueue.mkQueue Nat 2).head_ = (MPMCQueue.mkQueue Nat 2).tail_ + 2)) ∧
     (((MPMCQueue.mkQueue Nat 2).dequeue 0).isSome = true ∧
      (((MPMCQueue.mkQueue Nat 2).dequeue 0).map (fun p => p.2.1) = some false ↔
        (MPMCQueue.mkQueue Nat 2).head_ = (MPMCQueue.mkQueue Nat 2).tail_))) ∧
    ((((RingBuffer.mkBuffer Nat 2).try_enqueue 3).2 = false ↔
        (RingBuffer.mkBuffer Nat 2).head_ = (RingBuffer.mkBuffer Nat 2).tail_ + 2) ∧
     (((RingBuffer.mkBuffer Nat 2).try_dequeue 0).2.1 = false ↔
        (RingBuffer.mkBuffer Nat 2).head_ = (RingBuffer.mkBuffer Nat 2).tail_) ∧
     ((RingBuffer.mkBuffer Nat 2).tryDequeueOpt.2 = none ↔
        (RingBuffer.mkBuffer Nat 2).head_ = (RingBuffer.mkBuffer Nat 2).tail_)) :=
  ⟨full_empty_iff_outcomes.1 Nat 2 1 rfl (by decide) _ MReach.init 3 0,
   full_empty_iff_outcomes.2 Nat 2 _ RReach.init 3 0⟩

/-- Claim C4: the generation (sequence) discipline of the MPMC queue — at
construction `slot[i].sequence = i`; a successful enqueue that claimed
absolute index `k = head` leaves `slot[k & mask].sequence = k + 1`; a
successful dequeue that claimed absolute index `k = tail` leaves
`slot[k & mask].sequence = k + capacity`. -/
theorem mpmc_generation_discipline :
    (∀ (α : Type) [Inhabited α] (C i : Nat),
      ((MPMCQueue.mkQueue α C).slots_ i).sequence = i) ∧
    (∀ (α : Type) (C : Nat) (q : MPMCQueue α C) (v : α) (q' : MPMCQueue α C),
      q.enqueue v = some (q', true) →
      (q'.slots_ (q.head_ &&& (C - 1))).sequence = q.head_ + 1) ∧
    (∀ (α : Type) (C : Nat) (q : MPMCQueue α C) (r : α)
        (q' : MPMCQueue α C) (res : α),
      q.dequeue r = some (q', true, res) →
      (q'.slots_ (q.tail_ &&& (C - 1))).sequence = q.tail_ + C) := by
  refine ⟨?_, ?_, ?_⟩
  · intro α _ C i
    simp [MPMCQueue.mkQueue]
  · intro α C q v q' h
    simp only [MPMCQueue.enqueue] at h
    split at h
    · split at h
      · simp at h
      · simp at h
    · injection h with h1
      simp only [Prod.mk.injEq] at h1
      obtain ⟨hq, -⟩ := h1
      rw [← hq]
      simp
  · intro α C q r q' res h
    simp only [MPMCQueue.dequeue] at h
    split at h
    · split at h
      · simp at h
      · simp at h
    · injection h with h1
      simp only [Prod.mk.injEq] at h1
      obtain ⟨hq, -⟩ := h1
      rw [← hq]
      simp

/-- Witness for C4: fresh capacity-2 queue, the slot written by the first
enqueue (claimed index 0), and the slot released by the first dequeue. -/
theorem mpmc_generation_discipline_witness :
    ((MPMCQueue.mkQueue Nat 2).slots_ 1).sequence = 1 ∧
    (mpmcW1.slots_ ((MPMCQueue.mkQueue Nat 2).head_ &&& (2 - 1))).sequence =
      (MPMCQueue.mkQueue Nat 2).head_ + 1 ∧
    (mpmcW2.slots_ (mpmcW1.tail_ &&& (2 - 1))).sequence = mpmcW1.tail_ + 2 :=
  ⟨mpmc_generation_discipline.1 Nat 2 1,
   mpmc_generation_discipline.2.1 Nat 2 (MPMCQueue.mkQueue Nat 2) 5 mpmcW1 rfl,
   mpmc_generation_discipline.2.2 Nat 2 mpmcW1 0 mpmcW2 5 rfl⟩

/-- Claim C5 — counterexample.  At capacity 1 (allowed by the
static_assert) the MPMC queue reaches, after two enqueues on a fresh
queue, a state with `producer_index - consumer_index = 2 > 1 = capacity`,
violating the claimed bound. -/
theorem mpmc_capacityOne_index_bound_violation :
    ((((MPMCQueue.mkQueue Nat 1).enqueue 10).bind fun p =>
        p.1.enqueue 20).map fun p => p.1.head_ - p.1.tail_) = some 2 ∧
    ¬ (2 : Nat) ≤ 1 :=
  ⟨by decide, by decide⟩

/-- Claim C5 as amended: on every sequentially reachable state,
`consumer_index ≤ producer_index` and
`producer_index - consumer_index ≤ capacity` — for the MPMC queue at
capacities `≥ 2`, and for the ring buffer at every capacity. -/
theorem index_bounds_invariant :
    (∀ (α : Type) [Inhabited α] (C m : Nat), C = 2 ^ m → 2 ≤ C →
      ∀ q : MPMCQueue α C, MReach α C q →
        q.tail_ ≤ q.head_ ∧ q.head_ - q.tail_ ≤ C) ∧
    (∀ (α : Type) [Inhabited α] (C : Nat),
      ∀ q : RingBuffer α C, RReach α C q →
        q.tail_ ≤ q.head_ ∧ q.head_ - q.tail_ ≤ C) := by
  constructor
  · intro α _ C m hC h2 q hq
    obtain ⟨h1, hb, -⟩ := mpmc_reach_inv hC h2 q hq
    exact ⟨h1, by omega⟩
  · intro α _ C q hq
    obtain ⟨h1, hb⟩ := ring_reach_inv q hq
    exact ⟨h1, by omega⟩

/-- Witness for the amended C5 at capacity 2, on the fresh queue/buffer. -/
theorem index_bounds_invariant_witness :
    ((MPMCQueue.mkQueue Nat 2).tail_ ≤ (MPMCQueue.mkQueue Nat 2).head_ ∧
     (MPMCQueue.mkQueue Nat 2).head_ - (MPMCQueue.mkQueue Nat 2).tail_ ≤ 2) ∧
    ((RingBuffer.mkBuffer Nat 2).tail_ ≤ (RingBuffer.mkBuffer Nat 2).head_ ∧
     (RingBuffer.mkBuffer Nat 2).head_ - (RingBuffer.mkBuffer Nat 2).tail_ ≤ 2) :=
  ⟨index_bounds_invariant.1 Nat 2 1 rfl (by decide) _ MReach.init,
   index_bounds_invariant.2 Nat 2 _ RReach.init⟩

/-- Claim C6: any number of fill-to-capacity / drain-fully cycles returns,
in every cycle, exactly that cycle's values in enqueue order (all enqueues
succeed, all dequeues deliver), for both variants — the indices wrap
around the backing array arbitrarily often. -/
theorem wraparound_cycles_identity (α : Type) [Inhabited α] (C m : Nat)
    (hC : C = 2 ^ m) (cycles : List (List α))
    (hlen : ∀ c ∈ cycles, c.length = C) :
    (MPMCQueue.runCycles (MPMCQueue.mkQueue α C) cycles).map Prod.snd =
      some (cycles.map fun c => (List.replicate c.length true, c.map some)) ∧
    (RingBuffer.runCycles (RingBuffer.mkBuffer α C) cycles).2 =
      cycles.map fun c => (List.replicate c.length true, c.map some) := by
  obtain ⟨hinv0, -⟩ := mpmc_inv_init (α := α) hC
  obtain ⟨q', hrun, -, -⟩ := mpmc_runCycles_ok hC cycles
    (MPMCQueue.mkQueue α C) hinv0 rfl (fun c hc => (hlen c hc).le)
  obtain ⟨rinv0, -⟩ := ring_inv_init (α := α) (C := C)
  obtain ⟨r', hrunR, -, -⟩ := ring_runCycles_ok hC cycles
    (RingBuffer.mkBuffer α C) rinv0 rfl (fun c hc => (hlen c hc).le)
  exact ⟨by rw [hrun]; rfl, by rw [hrunR]⟩

/-- Witness for C6: capacity 2, three cycles (the indices wrap the
two-slot array three times). -/
theorem wraparound_cycles_identity_witness :
    (MPMCQueue.runCycles (MPMCQueue.mkQueue Nat 2)
        [[1, 2], [3, 4], [5, 6]]).map Prod.snd =
      some [([true, true], [some 1, some 2]),
            ([true, true], [some 3, some 4]),
            ([true, true], [some 5, some 6])] ∧
    (RingBuffer.runCycles (RingBuffer.mkBuffer Nat 2)
        [[1, 2], [3, 4], [5, 6]]).2 =
      [([true, true], [some 1, some 2]),
       ([true, true], [some 3, some 4]),
       ([true, true], [some 5, some 6])] :=
  wraparound_cycles_identity Nat 2 1 rfl [[1, 2], [3, 4], [5, 6]] (by decide)

/-- Claim C7 — counterexample.  At capacity 1, after two enqueues on a
fresh MPMC queue (a reachable state), `size()` returns `2` while
`capacity()` is `1`, so `size()` exceeds `capacity()`. -/
theorem mpmc_capacityOne_size_exceeds_capacity :
    ((((MPMCQueue.mkQueue Nat 1).enqueue 10).bind fun p =>
        p.1.enqueue 20).map fun p => (p.1.size, p.1.capacityV)) =
      some (2, 1) ∧
    ¬ (2 : Nat) ≤ 1 :=
  ⟨by decide, by decide⟩

/-- Claim C7 as amended: on every sequentially reachable state,
`empty() = (size() = 0)`, `size() ≤ capacity()`, and `size()` equals
`head - tail` (clamped at 0) — for the MPMC queue at capacities `≥ 2`,
and for the ring buffer at every capacity. -/
theorem size_empty_invariants :
    (∀ (α : Type) [Inhabited α] (C m : Nat), C = 2 ^ m → 2 ≤ C →
      ∀ q : MPMCQueue α C, MReach α C q →
        ((q.emptyQ = true) ↔ q.size = 0) ∧ q.size ≤ q.capacityV ∧
        q.size = q.head_ - q.tail_) ∧
    (∀ (α : Type) [Inhabited α] (C : Nat),
      ∀ q : RingBuffer α C, RReach α C q →
        ((q.emptyQ = true) ↔ q.size = 0) ∧ q.size ≤ q.capacityV ∧
        q.size = q.head_ - q.tail_) := by
  constructor
  · intro α _ C m hC h2 q hq
    obtain ⟨h1, hb, -⟩ := mpmc_reach_inv hC h2 q hq
    have hsz : q.size = q.head_ - q.tail_ := if_pos h1
    refine ⟨?_, ?_, hsz⟩
    · simp only [MPMCQueue.emptyQ, beq_iff_eq, hsz]
      omega
    · rw [hsz]
      show q.head_ - q.tail_ ≤ C
      omega
  · intro α _ C q hq
    obtain ⟨h1, hb⟩ := ring_reach_inv q hq
    refine ⟨?_, ?_, rfl⟩
    · simp only [RingBuffer.emptyQ, beq_iff_eq]
    · show q.head_ - q.tail_ ≤ C
      omega

/-- Witness for the amended C7 at capacity 2, on the fresh queue/buffer. -/
theorem size_empty_invariants_witness :
    ((((MPMCQueue.mkQueue Nat 2).emptyQ = true) ↔
        (MPMCQueue.mkQueue Nat 2).size = 0) ∧
     (MPMCQueue.mkQueue Nat 2).size ≤ (MPMCQueue.mkQueue Nat 2).capacityV ∧
     (MPMCQueue.mkQueue Nat 2).size =
       (MPMCQueue.mkQueue Nat 2).head_ - (MPMCQueue.mkQueue Nat 2).tail_) ∧
    ((((RingBuffer.mkBuffer Nat 2).emptyQ = true) ↔
        (RingBuffer.mkBuffer Nat 2).size = 0) ∧
     (RingBuffer.mkBuffer Nat 2).size ≤ (RingBuffer.mkBuffer Nat 2).capacityV ∧
     (RingBuffer.mkBuffer Nat 2).size =
       (RingBuffer.mkBuffer Nat 2).head_ - (RingBuffer.mkBuffer Nat 2).tail_) :=
  ⟨size_empty_invariants.1 Nat 2 1 rfl (by decide) _ MReach.init,
   size_empty_invariants.2 Nat 2 _ RReach.init⟩

/-- Claim C8: the out-parameter and optional-returning dequeue forms are
equivalent on every state — same success condition, same delivered
element, same resulting state (including, for the MPMC queue, the same
divergence behaviour), for both variants. -/
theorem dequeue_forms_equivalent :
    (∀ (α : Type) [Inhabited α] (C : Nat) (q : MPMCQueue α C) (r : α),
      q.dequeueOpt = (q.dequeue r).map fun p =>
        (p.1, if p.2.1 then some p.2.2 else none)) ∧
    (∀ (α : Type) (C : Nat) (q : RingBuffer α C) (r : α),
      q.tryDequeueOpt =
        ((q.try_dequeue r).1,
         if (q.try_dequeue r).2.1 then some (q.try_dequeue r).2.2
         else none)) := by
  constructor
  · intro α _ C q r
    by_cases h1 : ((q.slots_ (q.tail_ &&& (C - 1))).sequence : Int)
        - (q.tail_ : Int) - 1 ≠ 0
    · by_cases h2 : ((q.slots_ (q.tail_ &&& (C - 1))).sequence : Int)
          - (q.tail_ : Int) - 1 < 0
      · simp [MPMCQueue.dequeueOpt, MPMCQueue.dequeue, h1, h2]
      · simp [MPMCQueue.dequeueOpt, MPMCQueue.dequeue, h1, h2]
    · simp [MPMCQueue.dequeueOpt, MPMCQueue.dequeue, h1]
  · intro α C q r
    by_cases hg : q.head_ ≤ q.tail_
    · simp [RingBuffer.tryDequeueOpt, RingBuffer.try_dequeue, hg]
    · simp [RingBuffer.tryDequeueOpt, RingBuffer.try_dequeue, hg]

/-- Claim C9 — failing evaluation.  After one `try_enqueue` on a fresh
capacity-2 ring buffer (`head = 1`, `tail = 0`, exactly one element, at
physical slot `tail & mask = 0`), the destructor's loop
`while (head != tail) { buffer_[head & mask_].~T(); head++; }` starts at
`head`, not `tail`: its first destructor call hits slot `1` (which holds
no element), and it keeps destroying slots `1, 0, 1, 0, …` as `head`
walks away from `tail` (terminating only after `size_t` wraparound) —
instead of destroying exactly slot `0` once as the claim requires. -/
theorem ring_dtor_destroys_wrong_slots :
    (ringW1.head_, ringW1.tail_) = (1, 0) ∧
    ringW1.head_ - ringW1.tail_ = 1 ∧
    ringW1.dtorDestroyed 2 = [1, 0] ∧
    ringW1.dtorDestroyed 5 = [1, 0, 1, 0, 1] := by
  exact ⟨by decide, by decide, by decide, by decide⟩

/-- Claim C10 (frame property): a successful enqueue advances the producer
index by one and rewrites only its claimed slot; a successful dequeue
advances the consumer index by one and rewrites only its claimed slot (the
ring buffer's dequeue rewrites no slot at all); an operation that reports
full/empty leaves the queue — and the out-parameter — unchanged. -/
theorem queue_frame_properties :
    (∀ (α : Type) (C : Nat) (q : MPMCQueue α C) (v : α) (q' : MPMCQueue α C),
      q.enqueue v = some (q', true) →
        q'.head_ = q.head_ + 1 ∧ q'.tail_ = q.tail_ ∧
        ∀ j, j ≠ q.head_ &&& (C - 1) → q'.slots_ j = q.slots_ j) ∧
    (∀ (α : Type) (C : Nat) (q : MPMCQueue α C) (v : α) (q' : MPMCQueue α C),
      q.enqueue v = some (q', false) → q' = q) ∧
    (∀ (α : Type) (C : Nat) (q : MPMCQueue α C) (r : α)
        (q' : MPMCQueue α C) (res : α),
      q.dequeue r = some (q', true, res) →
        q'.head_ = q.head_ ∧ q'.tail_ = q.tail_ + 1 ∧
        ∀ j, j ≠ q.tail_ &&& (C - 1) → q'.slots_ j = q.slots_ j) ∧
    (∀ (α : Type) (C : Nat) (q : MPMCQueue α C) (r : α)
        (q' : MPMCQueue α C) (res : α),
      q.dequeue r = some (q', false, res) → q' = q ∧ res = r) ∧
    (∀ (α : Type) (C : Nat) (q : RingBuffer α C) (v : α),
      ((q.try_enqueue v).2 = true →
        (q.try_enqueue v).1.head_ = q.head_ + 1 ∧
        (q.try_enqueue v).1.tail_ = q.tail_ ∧
        ∀ j, j ≠ q.head_ &&& (C - 1) →
          (q.try_enqueue v).1.buffer_ j = q.buffer_ j) ∧
      ((q.try_enqueue v).2 = false → (q.try_enqueue v).1 = q)) ∧
    (∀ (α : Type) (C : Nat) (q : RingBuffer α C) (r : α),
      ((q.try_dequeue r).2.1 = true →
        (q.try_dequeue r).1.head_ = q.head_ ∧
        (q.try_dequeue r).1.tail_ = q.tail_ + 1 ∧
        (q.try_dequeue r).1.buffer_ = q.buffer_) ∧
      ((q.try_dequeue r).2.1 = false →
        (q.try_dequeue r).1 = q ∧ (q.try_dequeue r).2.2 = r)) := by
  refine ⟨?_, ?_, ?_, ?_, ?_, ?_⟩
  · intro α C q v q' h
    simp only [MPMCQueue.enqueue] at h
    split at h
    · split at h
      · simp at h
      · simp at h
    · injection h with h1
      simp only [Prod.mk.injEq] at h1
      obtain ⟨hq, -⟩ := h1
      rw [← hq]
      refine ⟨rfl, rfl, ?_⟩
      intro j hj
      simp [if_neg hj]
  · intro α C q v q' h
    simp only [MPMCQueue.enqueue] at h
    split at h
    · split at h
      · injection h with h1
        simp only [Prod.mk.injEq] at h1
        exact h1.1.symm
      · simp at h
    · simp at h
  · intro α C q r q' res h
    simp only [MPMCQueue.dequeue] at h
    split at h
    · split at h
      · simp at h
      · simp at h
    · injection h with h1
      simp only [Prod.mk.injEq] at h1
      obtain ⟨hq, -⟩ := h1
      rw [← hq]
      refine ⟨rfl, rfl, ?_⟩
      intro j hj
      simp [if_neg hj]
  · intro α C q r q' res h
    simp only [MPMCQueue.dequeue] at h
    split at h
    · split at h
      · injection h with h1
        simp only [Prod.mk.injEq] at h1
        exact ⟨h1.1.symm, h1.2.2.symm⟩
      · simp at h
    · simp at h
  · intro α C q v
    by_cases hg : q.head_ + 1 - q.tail_ > C
    · have he : q.try_enqueue v = (q, false) := by
        simp [RingBuffer.try_enqueue, hg]
      rw [he]
      exact ⟨fun hb => by simp at hb, fun _ => rfl⟩
    · have he : q.try_enqueue v =
          ({ head_ := q.head_ + 1, tail_ := q.tail_,
             buffer_ := fun j => if j = q.head_ &&& (C - 1) then v
               else q.buffer_ j }, true) := by
        simp [RingBuffer.try_enqueue, hg]
      rw [he]
      refine ⟨fun _ => ⟨rfl, rfl, ?_⟩, fun hb => by simp at hb⟩
      intro j hj
      simp [if_neg hj]
  · intro α C q r
    by_cases hg : q.head_ ≤ q.tail_
    · have he : q.try_dequeue r = (q, false, r) := by
        simp [RingBuffer.try_dequeue, hg]
      rw [he]
      exact ⟨fun hb => by simp at hb, fun _ => ⟨rfl, rfl⟩⟩
    · have he : q.try_dequeue r =
          ({ head_ := q.head_, tail_ := q.tail_ + 1, buffer_ := q.buffer_ },
           true, q.buffer_ (q.tail_ &&& (C - 1))) := by
        simp [RingBuffer.try_dequeue, hg]
      rw [he]
      exact ⟨fun _ => ⟨rfl, rfl, rfl⟩, fun hb => by simp at hb⟩

/-- Witness for C10 on concrete capacity-2 states: a successful enqueue
(fresh queue), a failed enqueue (full queue), a successful dequeue, a
failed dequeue (empty queue), and the ring-buffer analogues. -/
theorem queue_frame_properties_witness :
    (mpmcW1.head_ = (MPMCQueue.mkQueue Nat 2).head_ + 1 ∧
     mpmcW1.tail_ = (MPMCQueue.mkQueue Nat 2).tail_ ∧
     ∀ j, j ≠ (MPMCQueue.mkQueue Nat 2).head_ &&& (2 - 1) →
       mpmcW1.slots_ j = (MPMCQueue.mkQueue Nat 2).slots_ j) ∧
    (mpmcWFull = mpmcWFull) ∧
    (mpmcW2.head_ = mpmcW1.head_ ∧ mpmcW2.tail_ = mpmcW1.tail_ + 1 ∧
     ∀ j, j ≠ mpmcW1.tail_ &&& (2 - 1) → mpmcW2.slots_ j = mpmcW1.slots_ j) ∧
    (MPMCQueue.mkQueue Nat 2 = MPMCQueue.mkQueue Nat 2 ∧ (0 : Nat) = 0) ∧
    (((RingBuffer.mkBuffer Nat 2).try_enqueue 7).1.head_ =
        (RingBuffer.mkBuffer Nat 2).head_ + 1 ∧
     ((RingBuffer.mkBuffer Nat 2).try_enqueue 7).1.tail_ =
        (RingBuffer.mkBuffer Nat 2).tail_ ∧
     ∀ j, j ≠ (RingBuffer.mkBuffer Nat 2).head_ &&& (2 - 1) →
       ((RingBuffer.mkBuffer Nat 2).try_enqueue 7).1.buffer_ j =
         (RingBuffer.mkBuffer Nat 2).buffer_ j) ∧
    ((ringW1.try_dequeue 0).1.head_ = ringW1.head_ ∧
     (ringW1.try_dequeue 0).1.tail_ = ringW1.tail_ + 1 ∧
     (ringW1.try_dequeue 0).1.buffer_ = ringW1.buffer_) :=
  ⟨queue_frame_properties.1 Nat 2 (MPMCQueue.mkQueue Nat 2) 5 mpmcW1 rfl,
   queue_frame_properties.2.1 Nat 2 mpmcWFull 11 mpmcWFull rfl,
   queue_frame_properties.2.2.1 Nat 2 mpmcW1 0 mpmcW2 5 rfl,
   queue_frame_properties.2.2.2.1 Nat 2 (MPMCQueue.mkQueue Nat 2) 0
     (MPMCQueue.mkQueue Nat 2) 0 rfl,
   (queue_frame_properties.2.2.2.2.1 Nat 2 (RingBuffer.mkBuffer Nat 2) 7).1 rfl,
   (queue_frame_properties.2.2.2.2.2 Nat 2 ringW1 0).1 rfl⟩
